import Mathlib

/-!
Verification of the `eventp` reactor core (a safe Rust abstraction over Linux
epoll).  The development shallowly embeds the code of `src/lib.rs`,
`src/interest.rs` and `src/thin.rs`:

* `Interest` is the builder over the epoll flag bitmask (`src/interest.rs`);
  flags are natural-number bit patterns, `union` is bitwise or and
  `difference` is and-not restricted to the 32-bit flag word, exactly as the
  `bitflags`-backed `EpollFlags` operations behave.
* `ThinBoxSubscriber` models the one-word owning handle of `src/thin.rs`:
  the single allocation is represented by its contents at signed byte
  offsets relative to the value pointer (`-16` holds the raw fd, `-8` the
  vtable word, as written by `ThinBoxSubscriber::new`).
* `EventpState` models the reactor of `src/lib.rs`: the registration table
  (an association list mirroring the `FxHashMap`), the set of fds armed in
  the kernel epoll instance, the `handling` re-entrancy state, plus two
  ghost logs that record Rust-level effects: `destroyed` (ids of subscriber
  handles whose destructor ran) and `invoked` (fds whose handler was
  called).  `nextId` mints the identity of each freshly constructed handle.
  Kernel `epoll_ctl` calls are embedded with their documented deterministic
  failures (`EEXIST` for ADD on an armed fd, `ENOENT` for MOD/DEL on a
  disarmed fd) and an `Option IOError` oracle for any other kernel failure.
-/

namespace EventpModel

/-! ## Interest (`src/interest.rs`) -/

/-- `EPOLLIN`. -/
def EPOLLIN : Nat := 1

/-- `EPOLLPRI`. -/
def EPOLLPRI : Nat := 2

/-- `EPOLLOUT`. -/
def EPOLLOUT : Nat := 4

/-- `EPOLLERR`. -/
def EPOLLERR : Nat := 8

/-- `EPOLLHUP`. -/
def EPOLLHUP : Nat := 16

/-- `EPOLLRDHUP`. -/
def EPOLLRDHUP : Nat := 8192

/-- `EPOLLEXCLUSIVE`. -/
def EPOLLEXCLUSIVE : Nat := 2 ^ 28

/-- `EPOLLWAKEUP`. -/
def EPOLLWAKEUP : Nat := 2 ^ 29

/-- `EPOLLONESHOT`. -/
def EPOLLONESHOT : Nat := 2 ^ 30

/-- `EPOLLET`. -/
def EPOLLET : Nat := 2 ^ 31

/-- The 32-bit word the epoll flags live in. -/
def flagsMask : Nat := 2 ^ 32 - 1

/-- `struct Interest(EpollFlags)` — a wrapper around the epoll flag bitmask. -/
structure Interest where
  bits : Nat
deriving DecidableEq

/-- `Interest::add`: `Self(self.0.union(flags))`, i.e. bitwise or. -/
def Interest.add (i : Interest) (flags : Nat) : Interest :=
  ⟨i.bits ||| flags⟩

/-- `Interest::remove`: `Self(self.0.difference(flags))`, i.e. and-not on
the 32-bit flag word. -/
def Interest.remove (i : Interest) (flags : Nat) : Interest :=
  ⟨i.bits &&& (flagsMask ^^^ flags)⟩

/-- `Interest::read`. -/
def Interest.read (i : Interest) : Interest := i.add EPOLLIN

/-- `Interest::write`. -/
def Interest.write (i : Interest) : Interest := i.add EPOLLOUT

/-- `Interest::read_write`: `self.read().write()`. -/
def Interest.read_write (i : Interest) : Interest := i.read.write

/-- `Interest::rdhup`. -/
def Interest.rdhup (i : Interest) : Interest := i.add EPOLLRDHUP

/-- `Interest::pri`. -/
def Interest.pri (i : Interest) : Interest := i.add EPOLLPRI

/-- `Interest::edge_triggered`. -/
def Interest.edge_triggered (i : Interest) : Interest := i.add EPOLLET

/-- `Interest::oneshot`. -/
def Interest.oneshot (i : Interest) : Interest := i.add EPOLLONESHOT

/-- `Interest::wakeup`. -/
def Interest.wakeup (i : Interest) : Interest := i.add EPOLLWAKEUP

/-- `Interest::exclusive`. -/
def Interest.exclusive (i : Interest) : Interest := i.add EPOLLEXCLUSIVE

/-- `Interest::remove_read`. -/
def Interest.remove_read (i : Interest) : Interest := i.remove EPOLLIN

/-- `Interest::remove_write`. -/
def Interest.remove_write (i : Interest) : Interest := i.remove EPOLLOUT

/-- `Interest::remove_rdhup`. -/
def Interest.remove_rdhup (i : Interest) : Interest := i.remove EPOLLRDHUP

/-- `Interest::remove_pri`. -/
def Interest.remove_pri (i : Interest) : Interest := i.remove EPOLLPRI

/-- `Interest::remove_edge_triggered`. -/
def Interest.remove_edge_triggered (i : Interest) : Interest := i.remove EPOLLET

/-- `Interest::remove_oneshot`. -/
def Interest.remove_oneshot (i : Interest) : Interest := i.remove EPOLLONESHOT

/-- `Interest::remove_wakeup`. -/
def Interest.remove_wakeup (i : Interest) : Interest := i.remove EPOLLWAKEUP

/-- `Interest::remove_exclusive`. -/
def Interest.remove_exclusive (i : Interest) : Interest := i.remove EPOLLEXCLUSIVE

/-- `interest()`: the empty flag set, the recommended API entry point. -/
def interest : Interest := ⟨0⟩

/-- The add-style builder methods of `Interest`. -/
inductive AddCall where
  | read | write | read_write | rdhup | pri
  | edge_triggered | oneshot | wakeup | exclusive
deriving DecidableEq

/-- Applies one add-style builder method. -/
def applyAdd (i : Interest) : AddCall → Interest
  | .read => i.read
  | .write => i.write
  | .read_write => i.read_write
  | .rdhup => i.rdhup
  | .pri => i.pri
  | .edge_triggered => i.edge_triggered
  | .oneshot => i.oneshot
  | .wakeup => i.wakeup
  | .exclusive => i.exclusive

/-- The flag bits contributed by one add-style builder method. -/
def contrib : AddCall → Nat
  | .read => EPOLLIN
  | .write => EPOLLOUT
  | .read_write => EPOLLIN ||| EPOLLOUT
  | .rdhup => EPOLLRDHUP
  | .pri => EPOLLPRI
  | .edge_triggered => EPOLLET
  | .oneshot => EPOLLONESHOT
  | .wakeup => EPOLLWAKEUP
  | .exclusive => EPOLLEXCLUSIVE

/-- The remove-style builder methods of `Interest`. -/
inductive RemoveCall where
  | remove_read | remove_write | remove_rdhup | remove_pri
  | remove_edge_triggered | remove_oneshot | remove_wakeup | remove_exclusive
deriving DecidableEq

/-- Applies one remove-style builder method. -/
def applyRemove (i : Interest) : RemoveCall → Interest
  | .remove_read => i.remove_read
  | .remove_write => i.remove_write
  | .remove_rdhup => i.remove_rdhup
  | .remove_pri => i.remove_pri
  | .remove_edge_triggered => i.remove_edge_triggered
  | .remove_oneshot => i.remove_oneshot
  | .remove_wakeup => i.remove_wakeup
  | .remove_exclusive => i.remove_exclusive

/-- The single flag a remove-style builder method clears. -/
def removeFlag : RemoveCall → Nat
  | .remove_read => EPOLLIN
  | .remove_write => EPOLLOUT
  | .remove_rdhup => EPOLLRDHUP
  | .remove_pri => EPOLLPRI
  | .remove_edge_triggered => EPOLLET
  | .remove_oneshot => EPOLLONESHOT
  | .remove_wakeup => EPOLLWAKEUP
  | .remove_exclusive => EPOLLEXCLUSIVE

theorem applyAdd_bits (i : Interest) (c : AddCall) :
    (applyAdd i c).bits = i.bits ||| contrib c := by
  cases c <;>
    simp [applyAdd, contrib, Interest.read, Interest.write, Interest.read_write,
      Interest.rdhup, Interest.pri, Interest.edge_triggered, Interest.oneshot,
      Interest.wakeup, Interest.exclusive, Interest.add, Nat.lor_assoc]

theorem foldl_applyAdd_bits (cs : List AddCall) (i : Interest) :
    (cs.foldl applyAdd i).bits = cs.foldl (fun a c => a ||| contrib c) i.bits := by
  induction cs generalizing i with
  | nil => rfl
  | cons c cs ih => simpa [applyAdd_bits] using ih (applyAdd i c)

theorem testBit_maskRemove (a f : Nat) (ha : a < 2 ^ 32) (k : Nat) :
    (a &&& (flagsMask ^^^ f)).testBit k = (a.testBit k && !(f.testBit k)) := by
  rw [Nat.testBit_land, Nat.testBit_xor]
  by_cases hk : k < 32
  · have hm : flagsMask.testBit k = true := by
      rw [flagsMask, Nat.testBit_two_pow_sub_one]
      simpa using hk
    rw [hm]
    cases a.testBit k <;> cases f.testBit k <;> rfl
  · have hle : 2 ^ 32 ≤ 2 ^ k := Nat.pow_le_pow_right (by norm_num) (by omega)
    have hak : a.testBit k = false := Nat.testBit_lt_two_pow (lt_of_lt_of_le ha hle)
    rw [hak]
    rfl

/-- C9.  For every sequence of builder calls starting from `interest()` (the
empty flag set) that only adds interest, the resulting bitmask equals the
bitwise or of the flags contributed by each call; each `remove_*` method
clears exactly the corresponding flag bit and leaves every other bit of the
32-bit flag word unchanged; and `read_write()` produces exactly
`read().write()`. -/
theorem interest_builder_algebra :
    (∀ cs : List AddCall,
      (cs.foldl applyAdd interest).bits = cs.foldl (fun a c => a ||| contrib c) 0)
    ∧ (∀ (i : Interest) (r : RemoveCall), i.bits < 2 ^ 32 → ∀ k : Nat,
        (applyRemove i r).bits.testBit k
          = (i.bits.testBit k && !((removeFlag r).testBit k)))
    ∧ (∀ i : Interest, i.read_write = i.read.write) := by
  refine ⟨fun cs => foldl_applyAdd_bits cs interest, ?_, fun i => rfl⟩
  intro i r hi k
  have : (applyRemove i r).bits = i.bits &&& (flagsMask ^^^ removeFlag r) := by
    cases r <;> rfl
  rw [this, testBit_maskRemove i.bits (removeFlag r) hi k]

/-- Witness for C9: the builder algebra evaluated at concrete inputs
(`[read, oneshot]` for the or-composition; clearing `EPOLLIN` from the
bitmask `0b101`). -/
theorem interest_builder_algebra_witness :
    (([AddCall.read, AddCall.oneshot].foldl applyAdd interest).bits
        = [AddCall.read, AddCall.oneshot].foldl (fun a c => a ||| contrib c) 0)
    ∧ (Interest.bits ⟨5⟩ < 2 ^ 32)
    ∧ ((applyRemove ⟨5⟩ RemoveCall.remove_read).bits.testBit 0
        = ((Interest.bits ⟨5⟩).testBit 0 && !((removeFlag RemoveCall.remove_read).testBit 0))) :=
  ⟨interest_builder_algebra.1 _, by norm_num,
   interest_builder_algebra.2.1 ⟨5⟩ RemoveCall.remove_read (by norm_num) 0⟩

/-! ## ThinBoxSubscriber (`src/thin.rs`) -/

/-- The subscriber value handed to `ThinBoxSubscriber::new`: its borrowed
raw fd (`value.as_fd().as_raw_fd()`) and its size (`size_of::<S>()`). -/
structure SubValue where
  raw : Int
  size : Nat
deriving DecidableEq

/-- `size_of::<usize>()` on the only supported pointer width. -/
def usizeBytes : Int := 8

/-- The one-word owning handle of `src/thin.rs`.  `mem off` is the content
of the composed allocation at signed byte offset `off` from the value
pointer; the value itself is carried alongside. -/
structure ThinBoxSubscriber where
  mem : Int → Int
  value : SubValue

/-- `ThinBoxSubscriber::new`: panics on a zero-sized pointee
(`"ZST not supported"`, modelled as `Except.error`); otherwise allocates and
writes the raw fd at offset `-2*usize`, the vtable word at offset `-usize`,
and the value at the pointer. -/
def ThinBoxSubscriber.new (vtablePtr : Int) (value : SubValue) :
    Except String ThinBoxSubscriber :=
  if value.size = 0 then .error "ZST not supported"
  else
    .ok { mem := fun off =>
            if off = -(2 * usizeBytes) then value.raw
            else if off = -usizeBytes then vtablePtr
            else 0,
          value := value }

/-- `ThinBoxSubscriber::raw_fd`: reads the i32 stored at offset
`-2*usize` from the value pointer. -/
def ThinBoxSubscriber.raw_fd (b : ThinBoxSubscriber) : Int :=
  b.mem (-(2 * usizeBytes))

/-- C8.  For every subscriber value of non-zero size,
`ThinBoxSubscriber::new` succeeds and `raw_fd()` on the resulting handle
equals the raw fd the value borrowed at construction time; for every
zero-sized value, `new` panics with `"ZST not supported"`. -/
theorem thin_new_raw_fd (vtablePtr : Int) (v : SubValue) :
    (v.size ≠ 0 → ∃ b, ThinBoxSubscriber.new vtablePtr v = .ok b
        ∧ b.raw_fd = v.raw ∧ b.value = v)
    ∧ (v.size = 0 → ThinBoxSubscriber.new vtablePtr v = .error "ZST not supported") := by
  constructor
  · intro h
    rw [ThinBoxSubscriber.new, if_neg h]
    exact ⟨_, rfl, by simp [ThinBoxSubscriber.raw_fd], rfl⟩
  · intro h
    simp [ThinBoxSubscriber.new, h]

/-- Witness for C8: a handle built over a value of size 4 with raw fd 3, and
the zero-sized rejection. -/
theorem thin_new_raw_fd_witness :
    (SubValue.size ⟨3, 4⟩ ≠ 0)
    ∧ (∃ b, ThinBoxSubscriber.new 77 ⟨3, 4⟩ = .ok b ∧ b.raw_fd = 3 ∧ b.value = ⟨3, 4⟩)
    ∧ (ThinBoxSubscriber.new 77 ⟨3, 0⟩ = .error "ZST not supported") :=
  ⟨by decide, (thin_new_raw_fd 77 ⟨3, 4⟩).1 (by decide),
   (thin_new_raw_fd 77 ⟨3, 0⟩).2 rfl⟩

/-! ## Errors (`std::io::Error` as used by `src/lib.rs`) -/

/-- The error kinds the reactor surfaces. -/
inductive ErrKind where
  | notFound
  | interrupted
  | other
  | os
deriving DecidableEq

/-- An `io::Error`: a kind plus a message. -/
structure IOError where
  kind : ErrKind
  msg : String
deriving DecidableEq

deriving instance DecidableEq for Except

/-- The error `Eventp::add` returns on self replacement during dispatch
(`io::ErrorKind::Other` in the source). -/
def selfReplacementErr : IOError :=
  ⟨.other, "cannot replace the subscriber of itself at running"⟩

/-- The error `Eventp::modify` returns for an unregistered fd. -/
def notFoundErr : IOError := ⟨.notFound, "fd not registered"⟩

/-- `EEXIST` from `EPOLL_CTL_ADD` on an already armed fd. -/
def eexistErr : IOError := ⟨.os, "EEXIST"⟩

/-- `ENOENT` from `EPOLL_CTL_MOD`/`EPOLL_CTL_DEL` on a disarmed fd. -/
def enoentErr : IOError := ⟨.os, "ENOENT"⟩

/-! ## Reactor state (`Eventp` of `src/lib.rs`) -/

/-- One owning subscriber handle as the registration table sees it: the
identity of its allocation (`id`, minted fresh at construction), the raw fd
cached in the thin block, and the current content of its `Cell<Interest>`. -/
structure SubHandle where
  id : Nat
  fd : Int
  cell : Interest
deriving DecidableEq

/-- `struct Handling { fd, deferred_remove }`: the re-entrancy state present
only during dispatch. -/
structure Handling where
  fd : Int
  deferred_remove : List Int
deriving DecidableEq

/-- The reactor.  `registered` mirrors the `FxHashMap<RawFd, ThinBoxSubscriber>`
as an association list; `armed` is the set of fds currently armed in the
kernel epoll instance; `handling` is the dispatch re-entrancy state.
`destroyed` and `invoked` are ghost logs of handle destructions and handler
invocations; `nextId` mints handle identities. -/
structure EventpState where
  registered : List (Int × SubHandle)
  armed : List Int
  handling : Option Handling
  destroyed : List Nat
  invoked : List Int
  nextId : Nat
deriving DecidableEq

/-- A freshly created reactor: empty table, nothing armed, not dispatching. -/
def initial : EventpState := ⟨[], [], none, [], [], 0⟩

/-- `HashMap::get`: the handle registered at `fd`, if any. -/
def tableFind : List (Int × SubHandle) → Int → Option SubHandle
  | [], _ => none
  | e :: t, fd => if e.1 = fd then some e.2 else tableFind t fd

/-- Removes the entry at `fd` (the table has at most one). -/
def tableErase : List (Int × SubHandle) → Int → List (Int × SubHandle)
  | [], _ => []
  | e :: t, fd => if e.1 = fd then tableErase t fd else e :: tableErase t fd

/-- `subscriber.interest().set(i)`: writes the interest cell of the handle
registered at `fd`. -/
def writeCell : List (Int × SubHandle) → Int → Interest → List (Int × SubHandle)
  | [], _, _ => []
  | e :: t, fd, i =>
    if e.1 = fd then (e.1, ⟨e.2.id, e.2.fd, i⟩) :: writeCell t fd i
    else e :: writeCell t fd i

/-- Removes `fd` from the armed set. -/
def armedErase : List Int → Int → List Int
  | [], _ => []
  | x :: t, fd => if x = fd then armedErase t fd else x :: armedErase t fd

/-- Appends the id of a dropped handle (if any) to the destruction log. -/
def dropId (d : List Nat) : Option SubHandle → List Nat
  | some o => d ++ [o.id]
  | none => d

/-! ## Kernel `epoll_ctl` embedding.  `k = none` means the syscall suffers no
spurious failure; `k = some e` injects an arbitrary kernel error `e`
(EBADF, ENOMEM, ...).  The deterministic EEXIST/ENOENT outcomes follow
epoll_ctl(2). -/

/-- `EPOLL_CTL_ADD`: fails with EEXIST if `fd` is already armed, otherwise
arms it (or fails with the injected error). -/
def ctl_add (armed : List Int) (fd : Int) (k : Option IOError) :
    Except IOError (List Int) :=
  if fd ∈ armed then .error eexistErr
  else
    match k with
    | some e => .error e
    | none => .ok (fd :: armed)

/-- `EPOLL_CTL_MOD`: fails with ENOENT if `fd` is not armed; rearming with a
new event mask leaves the armed set unchanged. -/
def ctl_mod (armed : List Int) (fd : Int) (k : Option IOError) :
    Except IOError (List Int) :=
  if fd ∈ armed then
    match k with
    | some e => .error e
    | none => .ok armed
  else .error enoentErr

/-- `EPOLL_CTL_DEL`: fails with ENOENT if `fd` is not armed, otherwise
disarms it. -/
def ctl_del (armed : List Int) (fd : Int) (k : Option IOError) :
    Except IOError (List Int) :=
  if fd ∈ armed then
    match k with
    | some e => .error e
    | none => .ok (armedErase armed fd)
  else .error enoentErr

/-! ## Registration operations (`EventpOpsAdd`/`EventpOps` for `Eventp`) -/

/-- The re-entrancy check at the top of `Eventp::add`: is a dispatch in
progress whose current fd equals the handle's raw fd? -/
def selfCheck (s : EventpState) (raw_fd : Int) : Bool :=
  match s.handling with
  | some h => decide (h.fd = raw_fd)
  | none => false

/-- `Eventp::add`.  A fresh handle (id `s.nextId`) over `(fd, cell)` is
passed in.  Order as in the source: self-replacement check, then
`EPOLL_CTL_ADD`, then `registered.insert` (dropping any replaced prior
owner).  On any error the fresh handle itself is dropped. -/
def add (s : EventpState) (fd : Int) (cell : Interest) (k : Option IOError) :
    Except IOError Unit × EventpState :=
  if selfCheck s fd then
    (.error selfReplacementErr,
     { s with nextId := s.nextId + 1, destroyed := s.destroyed ++ [s.nextId] })
  else
    match ctl_add s.armed fd k with
    | .error e =>
      (.error e,
       { s with nextId := s.nextId + 1, destroyed := s.destroyed ++ [s.nextId] })
    | .ok armed' =>
      (.ok (),
       { s with nextId := s.nextId + 1,
                armed := armed',
                registered := (fd, ⟨s.nextId, fd, cell⟩) :: tableErase s.registered fd,
                destroyed := dropId s.destroyed (tableFind s.registered fd) })

/-- `Eventp::modify`: look up the handle (NotFound if absent), issue
`EPOLL_CTL_MOD`, and write the interest cell only on kernel success. -/
def modify (s : EventpState) (fd : Int) (i : Interest) (k : Option IOError) :
    Except IOError Unit × EventpState :=
  match tableFind s.registered fd with
  | none => (.error notFoundErr, s)
  | some _ =>
    match ctl_mod s.armed fd k with
    | .error e => (.error e, s)
    | .ok armed' =>
      (.ok (), { s with armed := armed', registered := writeCell s.registered fd i })

/-- Dropping the table entry at `fd`: the removal half of `Eventp::delete`
and of the deferred-removal loop (`registered.remove(&fd)`), with the
destructor of the removed handle logged. -/
def tableDrop (s : EventpState) (fd : Int) : EventpState :=
  { s with registered := tableErase s.registered fd,
           destroyed := dropId s.destroyed (tableFind s.registered fd) }

/-- `Eventp::delete`: issue `EPOLL_CTL_DEL` first; on kernel success, defer
the table removal if a dispatch is in progress, otherwise remove now. -/
def delete (s : EventpState) (fd : Int) (k : Option IOError) :
    Except IOError Unit × EventpState :=
  match ctl_del s.armed fd k with
  | .error e => (.error e, s)
  | .ok armed' =>
    match s.handling with
    | some h =>
      (.ok (), { s with armed := armed',
                        handling := some ⟨h.fd, h.deferred_remove ++ [fd]⟩ })
    | none => (.ok (), { tableDrop s fd with armed := armed' })

/-! ## Dispatch (`Eventp::run_once_with_timeout` of `src/lib.rs`) -/

/-- One registration call a handler makes on the scoped reactor handle
during dispatch. -/
inductive HandlerOp where
  | add (fd : Int) (cell : Interest) (k : Option IOError)
  | modify (fd : Int) (i : Interest) (k : Option IOError)
  | delete (fd : Int) (k : Option IOError)

/-- Applies one handler call (the scoped handle forwards to the same
`add`/`modify`/`delete` methods). -/
def applyHandlerOp (s : EventpState) : HandlerOp → EventpState
  | .add fd c k => (add s fd c k).2
  | .modify fd i k => (modify s fd i k).2
  | .delete fd k => (delete s fd k).2

/-- One event reported by `epoll_wait`: the raw fd of the subscriber the
cookie points at, and the registration calls its handler performs. -/
structure EventSpec where
  fd : Int
  ops : List HandlerOp

/-- `self.handling.as_mut().unwrap().fd = subscriber.raw_fd()`. -/
def setCurrentFd (s : EventpState) (fd : Int) : EventpState :=
  { s with handling := match s.handling with
                       | some h => some ⟨fd, h.deferred_remove⟩
                       | none => none }

/-- Dispatching one event: update the current fd, invoke the handler
(logged in `invoked`), and run its registration calls. -/
def dispatchEvent (s : EventpState) (ev : EventSpec) : EventpState :=
  let s1 := setCurrentFd s ev.fd
  ev.ops.foldl applyHandlerOp { s1 with invoked := s1.invoked ++ [ev.fd] }

/-- Entering the handling state:
`handling = Some { fd: -1, deferred_remove: vec![] }`. -/
def beginBatch (s : EventpState) : EventpState :=
  { s with handling := some ⟨-1, []⟩ }

/-- Taking the handling state back and removing every deferred fd from the
table (`for fd in handling.deferred_remove { self.registered.remove(&fd); }`). -/
def endBatch (s : EventpState) : EventpState :=
  match s.handling with
  | none => s
  | some h => h.deferred_remove.foldl tableDrop { s with handling := none }

/-- The timeout handed to `epoll_wait` (opaque to the model). -/
abbrev EpollTimeout := Nat

/-- `EpollTimeout::NONE` (block indefinitely). -/
def EpollTimeoutNONE : EpollTimeout := 0

/-- Outcome of the `epoll_wait` call: an error, or the reported events. -/
abbrev WaitOutcome := Except IOError (List EventSpec)

/-- Result of one `run_once`/`run_once_with_timeout` call. -/
inductive RunResult where
  | ok
  | err (e : IOError)
  | panicked (msg : String)
deriving DecidableEq

/-- `Eventp::run_once_with_timeout`: panic on re-entrant call; propagate an
`epoll_wait` error unchanged; otherwise enter the handling state, dispatch
every reported event, and process the deferred removals. -/
def run_once_with_timeout (s : EventpState) (_timeout : EpollTimeout)
    (wait : WaitOutcome) : RunResult × EventpState :=
  if s.handling.isSome then
    (.panicked "Recursive call to Eventp::run_with_timeout", s)
  else
    match wait with
    | .error e => (.err e, s)
    | .ok evs => (.ok, endBatch (evs.foldl dispatchEvent (beginBatch s)))

/-- `Eventp::run_once`: `run_once_with_timeout(EpollTimeout::NONE)`. -/
def run_once (s : EventpState) (wait : WaitOutcome) : RunResult × EventpState :=
  run_once_with_timeout s EpollTimeoutNONE wait

/-- Result of `Eventp::run_forever` over a finite prefix of `epoll_wait`
outcomes: the first fatal error, a propagated panic, or still looping when
the supplied outcomes are exhausted. -/
inductive ForeverResult where
  | err (e : IOError)
  | panicked (msg : String)
  | stillRunning (s : EventpState)

/-- `Eventp::run_forever`: loop on `Ok`, retry on `Interrupted`, return the
first other error. -/
def run_forever (s : EventpState) : List WaitOutcome → ForeverResult
  | [] => .stillRunning s
  | w :: ws =>
    match run_once s w with
    | (.ok, s') => run_forever s' ws
    | (.err e, s') => if e.kind = .interrupted then run_forever s' ws else .err e
    | (.panicked m, _) => .panicked m

/-! ## Basic table and kernel lemmas -/

theorem tableFind_erase (t : List (Int × SubHandle)) (fd g : Int) :
    tableFind (tableErase t fd) g = if g = fd then none else tableFind t g := by
  induction t with
  | nil =>
    simp only [tableErase, tableFind]
    split <;> rfl
  | cons e t ih =>
    simp only [tableErase]
    by_cases h1 : e.1 = fd
    · rw [if_pos h1, ih]
      by_cases h2 : g = fd
      · rw [if_pos h2, if_pos h2]
      · have h3 : e.1 ≠ g := fun hh => h2 (hh.symm.trans h1)
        rw [if_neg h2, if_neg h2]
        simp only [tableFind]
        rw [if_neg h3]
    · rw [if_neg h1]
      simp only [tableFind]
      by_cases h2 : e.1 = g
      · have h3 : g ≠ fd := fun hh => h1 (h2.trans hh)
        rw [if_pos h2, if_neg h3, if_pos h2]
      · rw [if_neg h2, ih]
        by_cases h3 : g = fd
        · rw [if_pos h3, if_pos h3]
        · rw [if_neg h3, if_neg h3, if_neg h2]

theorem tableFind_writeCell (t : List (Int × SubHandle)) (fd g : Int) (i : Interest) :
    tableFind (writeCell t fd i) g =
      if g = fd then (tableFind t g).map (fun sub => ⟨sub.id, sub.fd, i⟩)
      else tableFind t g := by
  induction t with
  | nil =>
    simp only [writeCell, tableFind, Option.map_none']
    split <;> rfl
  | cons e t ih =>
    simp only [writeCell]
    by_cases h1 : e.1 = fd
    · rw [if_pos h1]
      simp only [tableFind]
      by_cases h2 : e.1 = g
      · have h3 : g = fd := h2.symm.trans h1
        rw [if_pos h2, if_pos h2, if_pos h3, Option.map_some']
      · rw [if_neg h2, if_neg h2, ih]
    · rw [if_neg h1]
      simp only [tableFind]
      by_cases h2 : e.1 = g
      · have h3 : g ≠ fd := fun hh => h1 (h2.trans hh)
        rw [if_pos h2, if_neg h3, if_pos h2]
      · rw [if_neg h2, ih, if_neg h2]

theorem mem_armedErase (l : List Int) (fd g : Int) :
    g ∈ armedErase l fd ↔ g ∈ l ∧ g ≠ fd := by
  induction l with
  | nil => simp [armedErase]
  | cons x t ih =>
    simp only [armedErase]
    by_cases h1 : x = fd
    · subst h1
      rw [if_pos rfl, ih]
      simp only [List.mem_cons]
      tauto
    · rw [if_neg h1]
      simp only [List.mem_cons, ih]
      by_cases h2 : g = x
      · subst h2
        tauto
      · tauto

theorem ctl_mod_ok (armed : List Int) (fd : Int) (k : Option IOError)
    (armed' : List Int) (h : ctl_mod armed fd k = .ok armed') : armed' = armed := by
  unfold ctl_mod at h
  split at h
  · cases k <;> simp_all
  · simp_all

theorem ctl_del_ok (armed : List Int) (fd : Int) (k : Option IOError)
    (armed' : List Int) (h : ctl_del armed fd k = .ok armed') :
    armed' = armedErase armed fd ∧ fd ∈ armed := by
  unfold ctl_del at h
  split at h
  · cases k <;> simp_all
  · simp_all

theorem ctl_add_ok (armed : List Int) (fd : Int) (k : Option IOError)
    (armed' : List Int) (h : ctl_add armed fd k = .ok armed') :
    armed' = fd :: armed ∧ fd ∉ armed := by
  unfold ctl_add at h
  split at h
  · simp_all
  · cases k <;> simp_all

/-! ## C2: self-replacement rejection -/

/-- C2.  If a dispatch is in progress (`handling` is `Some`) and the handle's
raw fd equals the fd currently being handled, `add` fails with the non-fatal
error "cannot replace the subscriber of itself at running" (kind `Other`,
named SelfReplacement by the spec), performing no kernel mutation and no
change to the registration table. -/
theorem add_self_replacement (s : EventpState) (hdl : Handling) (c : Interest)
    (k : Option IOError) (hH : s.handling = some hdl) :
    (add s hdl.fd c k).1 = .error selfReplacementErr
    ∧ selfReplacementErr = ⟨.other, "cannot replace the subscriber of itself at running"⟩
    ∧ (add s hdl.fd c k).2.registered = s.registered
    ∧ (add s hdl.fd c k).2.armed = s.armed
    ∧ (add s hdl.fd c k).2.handling = s.handling := by
  have hs : selfCheck s hdl.fd = true := by simp [selfCheck, hH]
  refine ⟨?_, rfl, ?_, ?_, ?_⟩ <;> simp [add, hs]

/-- Witness for C2: a reactor dispatching fd 5 whose handler re-adds fd 5. -/
theorem add_self_replacement_witness :
    (EventpState.handling ⟨[(5, ⟨0, 5, ⟨1⟩⟩)], [5], some ⟨5, []⟩, [], [5], 1⟩
        = some ⟨5, []⟩)
    ∧ (add ⟨[(5, ⟨0, 5, ⟨1⟩⟩)], [5], some ⟨5, []⟩, [], [5], 1⟩ 5 ⟨1⟩ none).1
        = .error selfReplacementErr
    ∧ (add ⟨[(5, ⟨0, 5, ⟨1⟩⟩)], [5], some ⟨5, []⟩, [], [5], 1⟩ 5 ⟨1⟩ none).2.registered
        = [(5, ⟨0, 5, ⟨1⟩⟩)] :=
  ⟨rfl,
   (add_self_replacement ⟨[(5, ⟨0, 5, ⟨1⟩⟩)], [5], some ⟨5, []⟩, [], [5], 1⟩
      ⟨5, []⟩ ⟨1⟩ none rfl).1,
   (add_self_replacement ⟨[(5, ⟨0, 5, ⟨1⟩⟩)], [5], some ⟨5, []⟩, [], [5], 1⟩
      ⟨5, []⟩ ⟨1⟩ none rfl).2.2.1⟩

/-! ## C3: add is atomic, kernel first -/

/-- C3.  `add` submits `EPOLL_CTL_ADD` before touching the table: when the
kernel call fails the fresh handle is dropped and both the table and the
kernel armed set are unchanged; when it succeeds, the table maps `fd` to the
new handle, every other fd keeps its entry, and a prior entry for the same
fd (if any) is dropped — silent replacement. -/
theorem add_kernel_first (s : EventpState) (fd : Int) (c : Interest)
    (k : Option IOError) (hSelf : selfCheck s fd = false) :
    (∀ e, ctl_add s.armed fd k = .error e →
        (add s fd c k).1 = .error e
        ∧ (add s fd c k).2.registered = s.registered
        ∧ (add s fd c k).2.armed = s.armed
        ∧ (add s fd c k).2.destroyed = s.destroyed ++ [s.nextId])
    ∧ (∀ armed', ctl_add s.armed fd k = .ok armed' →
        (add s fd c k).1 = .ok ()
        ∧ (add s fd c k).2.armed = armed'
        ∧ tableFind (add s fd c k).2.registered fd = some ⟨s.nextId, fd, c⟩
        ∧ (∀ g, g ≠ fd → tableFind (add s fd c k).2.registered g
            = tableFind s.registered g)
        ∧ (add s fd c k).2.destroyed = dropId s.destroyed (tableFind s.registered fd)) := by
  constructor
  · intro e he
    refine ⟨?_, ?_, ?_, ?_⟩ <;> simp [add, hSelf, he]
  · intro armed' ha
    refine ⟨?_, ?_, ?_, ?_, ?_⟩
    · simp [add, hSelf, ha]
    · simp [add, hSelf, ha]
    · simp [add, hSelf, ha, tableFind]
    · intro g hg
      simp [add, hSelf, ha, tableFind, tableFind_erase, hg, Ne.symm hg]
    · simp [add, hSelf, ha]

/-- Witness for C3: adding fd 7 to a quiescent empty reactor succeeds and
registers the fresh handle. -/
theorem add_kernel_first_witness :
    (selfCheck initial 7 = false)
    ∧ (ctl_add initial.armed 7 none = .ok [7])
    ∧ (add initial 7 ⟨1⟩ none).1 = .ok ()
    ∧ tableFind (add initial 7 ⟨1⟩ none).2.registered 7 = some ⟨0, 7, ⟨1⟩⟩ :=
  ⟨rfl, rfl,
   ((add_kernel_first initial 7 ⟨1⟩ none rfl).2 [7] rfl).1,
   ((add_kernel_first initial 7 ⟨1⟩ none rfl).2 [7] rfl).2.2.1⟩

/-! ## C4: modify -/

/-- C4.  `modify(fd, i)` returns NotFound and changes nothing when `fd` is
not registered; when `fd` is registered it issues `EPOLL_CTL_MOD`, and the
interest cell is written exactly when the kernel call succeeds — on kernel
failure the whole state (cell included) is untouched. -/
theorem modify_contract (s : EventpState) (fd : Int) (i : Interest)
    (k : Option IOError) :
    (tableFind s.registered fd = none → modify s fd i k = (.error notFoundErr, s))
    ∧ (∀ sub, tableFind s.registered fd = some sub →
        (∀ e, ctl_mod s.armed fd k = .error e → modify s fd i k = (.error e, s))
        ∧ (∀ armed', ctl_mod s.armed fd k = .ok armed' →
            (modify s fd i k).1 = .ok ()
            ∧ tableFind (modify s fd i k).2.registered fd = some ⟨sub.id, sub.fd, i⟩
            ∧ (∀ g, g ≠ fd → tableFind (modify s fd i k).2.registered g
                = tableFind s.registered g)
            ∧ (modify s fd i k).2.armed = s.armed
            ∧ (modify s fd i k).2.handling = s.handling
            ∧ (modify s fd i k).2.destroyed = s.destroyed)) := by
  constructor
  · intro h
    simp [modify, h]
  · intro sub hsub
    constructor
    · intro e he
      simp [modify, hsub, he]
    · intro armed' ha
      have harm : armed' = s.armed := ctl_mod_ok s.armed fd k armed' ha
      refine ⟨?_, ?_, ?_, ?_, ?_, ?_⟩
      · simp [modify, hsub, ha]
      · simp [modify, hsub, ha, tableFind_writeCell]
      · intro g hg
        simp [modify, hsub, ha, tableFind_writeCell, hg]
      · simp [modify, hsub, ha, harm]
      · simp [modify, hsub, ha]
      · simp [modify, hsub, ha]

/-- Witness for C4: modifying registered fd 5 succeeds and writes the cell;
modifying unregistered fd 9 is NotFound. -/
theorem modify_contract_witness :
    (tableFind (EventpState.registered ⟨[(5, ⟨0, 5, ⟨1⟩⟩)], [5], none, [], [], 1⟩) 5
        = some ⟨0, 5, ⟨1⟩⟩)
    ∧ tableFind (modify ⟨[(5, ⟨0, 5, ⟨1⟩⟩)], [5], none, [], [], 1⟩ 5 ⟨4⟩ none).2.registered 5
        = some ⟨0, 5, ⟨4⟩⟩
    ∧ (tableFind (EventpState.registered ⟨[(5, ⟨0, 5, ⟨1⟩⟩)], [5], none, [], [], 1⟩) 9 = none)
    ∧ modify ⟨[(5, ⟨0, 5, ⟨1⟩⟩)], [5], none, [], [], 1⟩ 9 ⟨4⟩ none
        = (.error notFoundErr, ⟨[(5, ⟨0, 5, ⟨1⟩⟩)], [5], none, [], [], 1⟩) :=
  ⟨rfl,
   (((modify_contract ⟨[(5, ⟨0, 5, ⟨1⟩⟩)], [5], none, [], [], 1⟩ 5 ⟨4⟩ none).2
       ⟨0, 5, ⟨1⟩⟩ rfl).2 [5] rfl).2.1,
   rfl,
   (modify_contract ⟨[(5, ⟨0, 5, ⟨1⟩⟩)], [5], none, [], [], 1⟩ 9 ⟨4⟩ none).1 rfl⟩

/-! ## C10: epoll_wait failure leaves the reactor untouched -/

/-- C10.  If `epoll_wait` fails inside `run_once_with_timeout` (any timeout,
any quiescent prior state), the error is propagated and the reactor state is
returned completely unchanged: `handling` is still `None`, the table holds
the same entries, no interest cell is written, no handler is invoked. -/
theorem wait_error_frame (s : EventpState) (t : EpollTimeout) (e : IOError)
    (h : s.handling = none) :
    run_once_with_timeout s t (.error e) = (.err e, s) := by
  simp [run_once_with_timeout, h]

/-- Witness for C10: a failing wait on a one-subscriber reactor. -/
theorem wait_error_frame_witness :
    (EventpState.handling ⟨[(5, ⟨0, 5, ⟨1⟩⟩)], [5], none, [], [], 1⟩ = none)
    ∧ run_once_with_timeout ⟨[(5, ⟨0, 5, ⟨1⟩⟩)], [5], none, [], [], 1⟩ 3
        (.error ⟨.os, "EBADF"⟩)
      = (.err ⟨.os, "EBADF"⟩, ⟨[(5, ⟨0, 5, ⟨1⟩⟩)], [5], none, [], [], 1⟩) :=
  ⟨rfl, wait_error_frame ⟨[(5, ⟨0, 5, ⟨1⟩⟩)], [5], none, [], [], 1⟩ 3 ⟨.os, "EBADF"⟩ rfl⟩

/-! ## C6: re-entrant run panics -/

/-- C6.  `run_once_with_timeout` requires `handling` to be `None` on entry:
from any state in which `handling` is `Some` (any call made from within an
event handler), `run_once`, `run_forever` and `run_once_with_timeout` all
panic with the "Recursive call" message instead of returning. -/
theorem recursive_run_panics (s : EventpState) (t : EpollTimeout)
    (w : WaitOutcome) (ws : List WaitOutcome) (h : s.handling.isSome) :
    run_once_with_timeout s t w
      = (.panicked "Recursive call to Eventp::run_with_timeout", s)
    ∧ run_once s w = (.panicked "Recursive call to Eventp::run_with_timeout", s)
    ∧ run_forever s (w :: ws) = .panicked "Recursive call to Eventp::run_with_timeout" := by
  have h1 : run_once_with_timeout s t w
      = (.panicked "Recursive call to Eventp::run_with_timeout", s) := by
    simp [run_once_with_timeout, h]
  have h2 : run_once s w
      = (.panicked "Recursive call to Eventp::run_with_timeout", s) := by
    simp [run_once, run_once_with_timeout, h]
  exact ⟨h1, h2, by simp [run_forever, h2]⟩

/-- Witness for C6: running from inside the dispatch of fd 5 panics. -/
theorem recursive_run_panics_witness :
    (EventpState.handling ⟨[(5, ⟨0, 5, ⟨1⟩⟩)], [5], some ⟨5, []⟩, [], [5], 1⟩).isSome
    ∧ run_once ⟨[(5, ⟨0, 5, ⟨1⟩⟩)], [5], some ⟨5, []⟩, [], [5], 1⟩ (.ok [])
      = (.panicked "Recursive call to Eventp::run_with_timeout",
         ⟨[(5, ⟨0, 5, ⟨1⟩⟩)], [5], some ⟨5, []⟩, [], [5], 1⟩) :=
  ⟨rfl,
   (recursive_run_panics ⟨[(5, ⟨0, 5, ⟨1⟩⟩)], [5], some ⟨5, []⟩, [], [5], 1⟩
      EpollTimeoutNONE (.ok []) [] rfl).2.1⟩

/-! ## C7: EINTR policy of run_forever -/

theorem foldl_tableDrop_handling (l : List Int) (s : EventpState) :
    (l.foldl tableDrop s).handling = s.handling := by
  induction l generalizing s with
  | nil => rfl
  | cons a l ih => simpa [tableDrop] using ih (tableDrop s a)

theorem endBatch_handling (s : EventpState) : (endBatch s).handling = none := by
  unfold endBatch
  cases hs : s.handling with
  | none => exact hs
  | some h => exact foldl_tableDrop_handling _ _

theorem run_once_quiescent (s : EventpState) (t : EpollTimeout) (w : WaitOutcome)
    (h : s.handling = none) :
    ((run_once_with_timeout s t w).2).handling = none := by
  simp only [run_once_with_timeout, h, Option.isSome_none, Bool.false_eq_true, if_false]
  cases w with
  | error e => exact h
  | ok evs => exact endBatch_handling _

/-- Extracts the fatal-error outcome of `run_forever`, if that is how it
ended. -/
def foreverErr : ForeverResult → Option IOError
  | .err e => some e
  | .panicked _ => none
  | .stillRunning _ => none

/-- Written after the spec's words for C7: the first error among the
successive `epoll_wait` outcomes whose kind is not Interrupted (`Ok` batches
and EINTR are skipped). -/
def firstNonInterruptedErrorSpec : List WaitOutcome → Option IOError
  | [] => none
  | .ok _ :: ws => firstNonInterruptedErrorSpec ws
  | .error e :: ws =>
    if e.kind = .interrupted then firstNonInterruptedErrorSpec ws else some e

theorem run_forever_err_eq (ws : List WaitOutcome) :
    ∀ s : EventpState, s.handling = none →
      foreverErr (run_forever s ws) = firstNonInterruptedErrorSpec ws := by
  induction ws with
  | nil => intro s _; rfl
  | cons w ws ih =>
    intro s h
    cases w with
    | ok evs =>
      have h1 : run_once s (.ok evs)
          = (.ok, endBatch ((List.foldl dispatchEvent (beginBatch s) evs))) := by
        simp [run_once, run_once_with_timeout, h]
      rw [run_forever, h1, firstNonInterruptedErrorSpec]
      exact ih _ (endBatch_handling _)
    | error e =>
      have h1 : run_once s (.error e) = (.err e, s) := by
        simp [run_once, run_once_with_timeout, h]
      rw [run_forever, h1]
      by_cases hk : e.kind = .interrupted
      · simp only [firstNonInterruptedErrorSpec, hk, if_true]
        exact ih s h
      · simp [firstNonInterruptedErrorSpec, hk, foreverErr]

/-- C7.  Over any sequence of `epoll_wait` outcomes, `run_forever` keeps
looping on `Ok` batches and on errors of kind Interrupted, and returns the
first error whose kind is not Interrupted; `run_once` itself surfaces every
`epoll_wait` error — Interrupted included — to its caller unchanged. -/
theorem run_forever_eintr (s : EventpState) (ws : List WaitOutcome)
    (h : s.handling = none) :
    foreverErr (run_forever s ws) = firstNonInterruptedErrorSpec ws
    ∧ (∀ e : IOError, run_once s (.error e) = (.err e, s)) := by
  refine ⟨run_forever_err_eq ws s h, fun e => ?_⟩
  simp [run_once, run_once_with_timeout, h]

/-- Witness for C7: an EINTR followed by a fatal EBADF — the fatal error is
returned and the EINTR was retried through. -/
theorem run_forever_eintr_witness :
    (initial.handling = none)
    ∧ foreverErr (run_forever initial
        [.error ⟨.interrupted, "EINTR"⟩, .ok [], .error ⟨.os, "EBADF"⟩])
      = firstNonInterruptedErrorSpec
        [.error ⟨.interrupted, "EINTR"⟩, .ok [], .error ⟨.os, "EBADF"⟩]
    ∧ firstNonInterruptedErrorSpec
        [.error ⟨.interrupted, "EINTR"⟩, .ok [], .error ⟨.os, "EBADF"⟩]
      = some ⟨.os, "EBADF"⟩
    ∧ run_once initial (.error ⟨.interrupted, "EINTR"⟩)
      = (.err ⟨.interrupted, "EINTR"⟩, initial) :=
  ⟨rfl,
   (run_forever_eintr initial
      [.error ⟨.interrupted, "EINTR"⟩, .ok [], .error ⟨.os, "EBADF"⟩] rfl).1,
   by decide,
   (run_forever_eintr initial [] rfl).2 ⟨.interrupted, "EINTR"⟩⟩

/-! ## Handle identity bookkeeping

`WF` states the resource discipline the Rust ownership model enforces: table
keys are unique (it is a map), handle identities are unique, no handle is
both owned by the table and already destructed, destruction is logged at
most once per handle, and every identity ever minted is below `nextId`. -/

/-- The fds registered in the table. -/
def tableKeys (t : List (Int × SubHandle)) : List Int := t.map (fun e => e.1)

/-- The identities of the handles owned by the table. -/
def tableIds (t : List (Int × SubHandle)) : List Nat := t.map (fun e => e.2.id)

/-- Rust-level resource well-formedness of a reactor state. -/
def WF (s : EventpState) : Prop :=
  (tableKeys s.registered).Nodup
  ∧ (tableIds s.registered).Nodup
  ∧ s.destroyed.Nodup
  ∧ (∀ i ∈ tableIds s.registered, i ∉ s.destroyed)
  ∧ (∀ i ∈ tableIds s.registered, i < s.nextId)
  ∧ (∀ i ∈ s.destroyed, i < s.nextId)

instance WF.instDecidable (s : EventpState) : Decidable (WF s) := by
  unfold WF
  infer_instance

theorem tableErase_sublist (t : List (Int × SubHandle)) (fd : Int) :
    List.Sublist (tableErase t fd) t := by
  induction t with
  | nil => simp [tableErase]
  | cons e t ih =>
    simp only [tableErase]
    split
    · exact ih.cons e
    · exact ih.cons₂ e

theorem tableKeys_erase_sublist (t : List (Int × SubHandle)) (fd : Int) :
    List.Sublist (tableKeys (tableErase t fd)) (tableKeys t) :=
  (tableErase_sublist t fd).map _

theorem tableIds_erase_sublist (t : List (Int × SubHandle)) (fd : Int) :
    List.Sublist (tableIds (tableErase t fd)) (tableIds t) :=
  (tableErase_sublist t fd).map _

theorem not_mem_tableKeys_erase (t : List (Int × SubHandle)) (fd : Int) :
    fd ∉ tableKeys (tableErase t fd) := by
  induction t with
  | nil => simp [tableErase, tableKeys]
  | cons e t ih =>
    simp only [tableErase]
    split
    · exact ih
    · rename_i h
      simp only [tableKeys, List.map_cons, List.mem_cons]
      rintro (hh | hh)
      · exact h hh.symm
      · exact ih hh

theorem mem_tableIds_of_find (t : List (Int × SubHandle)) (fd : Int) (sub : SubHandle)
    (h : tableFind t fd = some sub) : sub.id ∈ tableIds t := by
  induction t with
  | nil => simp [tableFind] at h
  | cons e t ih =>
    simp only [tableFind] at h
    simp only [tableIds, List.map_cons, List.mem_cons]
    split at h
    · exact Or.inl (by rw [Option.some_inj.mp h])
    · exact Or.inr (ih h)

theorem find_id_not_mem_erase (t : List (Int × SubHandle)) (fd : Int) (sub : SubHandle)
    (hnd : (tableIds t).Nodup) (h : tableFind t fd = some sub) :
    sub.id ∉ tableIds (tableErase t fd) := by
  induction t with
  | nil => simp [tableFind] at h
  | cons e t ih =>
    simp only [tableFind] at h
    simp only [tableIds, List.map_cons, List.nodup_cons] at hnd
    simp only [tableErase]
    split at h
    · have hid : sub.id = e.2.id := by rw [Option.some_inj.mp h]
      rename_i he
      rw [if_pos he, hid]
      intro hmem
      exact hnd.1 ((tableIds_erase_sublist t fd).subset hmem)
    · rename_i he
      rw [if_neg he]
      simp only [tableIds, List.map_cons, List.mem_cons]
      rintro (hh | hh)
      · exact hnd.1 (hh ▸ mem_tableIds_of_find t fd sub h)
      · exact ih hnd.2 h hh

theorem tableKeys_writeCell (t : List (Int × SubHandle)) (fd : Int) (i : Interest) :
    tableKeys (writeCell t fd i) = tableKeys t := by
  induction t with
  | nil => rfl
  | cons e t ih =>
    simp only [writeCell]
    split <;> (simp only [tableKeys, List.map_cons]; exact congrArg (fun l => e.1 :: l) ih)

theorem tableIds_writeCell (t : List (Int × SubHandle)) (fd : Int) (i : Interest) :
    tableIds (writeCell t fd i) = tableIds t := by
  induction t with
  | nil => rfl
  | cons e t ih =>
    simp only [writeCell]
    split <;> (simp only [tableIds, List.map_cons]; exact congrArg (fun l => e.2.id :: l) ih)

theorem WF_dropList (s : EventpState) (hWF : WF s) :
    WF { s with nextId := s.nextId + 1, destroyed := s.destroyed ++ [s.nextId] } := by
  obtain ⟨hk, hi, hd, hdi, hbt, hbd⟩ := hWF
  unfold WF
  dsimp only
  refine ⟨hk, hi, ?_, ?_, ?_, ?_⟩
  · simp only [List.nodup_append, List.nodup_cons, List.nodup_nil]
    refine ⟨hd, ⟨by simp, by simp⟩, ?_⟩
    intro a ha
    simp only [List.mem_singleton]
    intro hh
    exact absurd (hbd a ha) (by rw [hh]; omega)
  · intro i hmem
    simp only [List.mem_append, List.mem_singleton, not_or]
    exact ⟨hdi i hmem, by have := hbt i hmem; omega⟩
  · intro i hmem
    have := hbt i hmem
    omega
  · intro i hmem
    simp only [List.mem_append, List.mem_singleton] at hmem
    rcases hmem with hmem | hmem
    · have := hbd i hmem; omega
    · omega

theorem WF_tableDrop (s : EventpState) (fd : Int) (hWF : WF s) :
    WF (tableDrop s fd) := by
  obtain ⟨hk, hi, hd, hdi, hbt, hbd⟩ := hWF
  unfold tableDrop
  cases hfind : tableFind s.registered fd with
  | none =>
    simp only [hfind, dropId]
    exact ⟨hk.sublist (tableKeys_erase_sublist _ _), hi.sublist (tableIds_erase_sublist _ _),
      hd,
      fun i hm => hdi i ((tableIds_erase_sublist _ _).subset hm),
      fun i hm => hbt i ((tableIds_erase_sublist _ _).subset hm),
      hbd⟩
  | some old =>
    simp only [hfind, dropId]
    have holdmem : old.id ∈ tableIds s.registered := mem_tableIds_of_find _ _ _ hfind
    refine ⟨hk.sublist (tableKeys_erase_sublist _ _), hi.sublist (tableIds_erase_sublist _ _),
      ?_, ?_, fun i hm => hbt i ((tableIds_erase_sublist _ _).subset hm), ?_⟩
    · simp only [List.nodup_append, List.nodup_cons, List.nodup_nil]
      refine ⟨hd, ⟨by simp, by simp⟩, ?_⟩
      intro a ha
      simp only [List.mem_singleton]
      intro hh
      exact hdi old.id holdmem (hh ▸ ha)
    · intro i hm
      simp only [List.mem_append, List.mem_singleton, not_or]
      refine ⟨hdi i ((tableIds_erase_sublist _ _).subset hm), ?_⟩
      intro hh
      exact find_id_not_mem_erase _ _ _ hi hfind (hh ▸ hm)
    · intro i hm
      simp only [List.mem_append, List.mem_singleton] at hm
      rcases hm with hm | hm
      · exact hbd i hm
      · exact hm ▸ hbt old.id holdmem

theorem WF_add (s : EventpState) (fd : Int) (c : Interest) (k : Option IOError)
    (hWF : WF s) : WF (add s fd c k).2 := by
  unfold add
  split
  · exact WF_dropList s hWF
  · cases hctl : ctl_add s.armed fd k with
    | error e =>
      simp only [hctl]
      exact WF_dropList s hWF
    | ok armed' =>
      simp only [hctl]
      obtain ⟨hk, hi, hd, hdi, hbt, hbd⟩ := hWF
      have hkeys : (tableKeys ((fd, ⟨s.nextId, fd, c⟩) :: tableErase s.registered fd)).Nodup := by
        simp only [tableKeys, List.map_cons, List.nodup_cons]
        exact ⟨not_mem_tableKeys_erase _ _, hk.sublist (tableKeys_erase_sublist _ _)⟩
      have hids : (tableIds ((fd, ⟨s.nextId, fd, c⟩) :: tableErase s.registered fd)).Nodup := by
        simp only [tableIds, List.map_cons, List.nodup_cons]
        refine ⟨?_, hi.sublist (tableIds_erase_sublist _ _)⟩
        intro hmem
        have := hbt _ ((tableIds_erase_sublist _ _).subset hmem)
        omega
      cases hfind : tableFind s.registered fd with
      | none =>
        simp only [hfind, dropId]
        unfold WF
        dsimp only
        refine ⟨hkeys, hids, hd, ?_, ?_, fun i hm => by have := hbd i hm; omega⟩
        · intro i hm
          simp only [tableIds, List.map_cons, List.mem_cons] at hm
          rcases hm with hm | hm
          · simp only [hm]
            intro hh
            have := hbd _ hh
            omega
          · exact hdi i ((tableIds_erase_sublist _ _).subset hm)
        · intro i hm
          simp only [tableIds, List.map_cons, List.mem_cons] at hm
          rcases hm with hm | hm
          · simp only [hm]; omega
          · have := hbt i ((tableIds_erase_sublist _ _).subset hm); omega
      | some old =>
        simp only [hfind, dropId]
        unfold WF
        dsimp only
        have holdmem : old.id ∈ tableIds s.registered := mem_tableIds_of_find _ _ _ hfind
        refine ⟨hkeys, hids, ?_, ?_, ?_, ?_⟩
        · simp only [List.nodup_append, List.nodup_cons, List.nodup_nil]
          refine ⟨hd, ⟨by simp, by simp⟩, ?_⟩
          intro a ha
          simp only [List.mem_singleton]
          intro hh
          exact hdi old.id holdmem (hh ▸ ha)
        · intro i hm
          simp only [tableIds, List.map_cons, List.mem_cons] at hm
          simp only [List.mem_append, List.mem_singleton, not_or]
          rcases hm with hm | hm
          · simp only [hm]
            constructor
            · intro hh
              have := hbd _ hh
              omega
            · intro hh
              have := hbt old.id holdmem
              omega
          · exact ⟨hdi i ((tableIds_erase_sublist _ _).subset hm),
              fun hh => find_id_not_mem_erase _ _ _ hi hfind (hh ▸ hm)⟩
        · intro i hm
          simp only [tableIds, List.map_cons, List.mem_cons] at hm
          rcases hm with hm | hm
          · simp only [hm]; omega
          · have := hbt i ((tableIds_erase_sublist _ _).subset hm); omega
        · intro i hm
          simp only [List.mem_append, List.mem_singleton] at hm
          rcases hm with hm | hm
          · have := hbd i hm; omega
          · have := hbt old.id holdmem; omega

theorem WF_modify (s : EventpState) (fd : Int) (i : Interest) (k : Option IOError)
    (hWF : WF s) : WF (modify s fd i k).2 := by
  unfold modify
  cases hfind : tableFind s.registered fd with
  | none => exact hWF
  | some sub =>
    simp only
    cases hctl : ctl_mod s.armed fd k with
    | error e => exact hWF
    | ok armed' =>
      obtain ⟨hk, hi, hd, hdi, hbt, hbd⟩ := hWF
      exact ⟨by rw [tableKeys_writeCell]; exact hk,
        by rw [tableIds_writeCell]; exact hi, hd,
        by rw [tableIds_writeCell]; exact hdi,
        by rw [tableIds_writeCell]; exact hbt, hbd⟩

theorem WF_delete (s : EventpState) (fd : Int) (k : Option IOError)
    (hWF : WF s) : WF (delete s fd k).2 := by
  unfold delete
  cases hctl : ctl_del s.armed fd k with
  | error e => exact hWF
  | ok armed' =>
    simp only
    cases hh : s.handling with
    | some h => exact hWF
    | none => exact WF_tableDrop s fd hWF

theorem WF_applyHandlerOp (s : EventpState) (op : HandlerOp) (hWF : WF s) :
    WF (applyHandlerOp s op) := by
  cases op with
  | add fd c k => exact WF_add s fd c k hWF
  | modify fd i k => exact WF_modify s fd i k hWF
  | delete fd k => exact WF_delete s fd k hWF

theorem WF_foldl_ops (ops : List HandlerOp) :
    ∀ s : EventpState, WF s → WF (ops.foldl applyHandlerOp s) := by
  induction ops with
  | nil => exact fun s h => h
  | cons op ops ih => exact fun s h => ih _ (WF_applyHandlerOp s op h)

theorem WF_dispatchEvent (s : EventpState) (ev : EventSpec) (hWF : WF s) :
    WF (dispatchEvent s ev) :=
  WF_foldl_ops ev.ops _ hWF

theorem WF_foldl_events (evs : List EventSpec) :
    ∀ s : EventpState, WF s → WF (evs.foldl dispatchEvent s) := by
  induction evs with
  | nil => exact fun s h => h
  | cons ev evs ih => exact fun s h => ih _ (WF_dispatchEvent s ev h)

theorem WF_endBatch (s : EventpState) (hWF : WF s) : WF (endBatch s) := by
  unfold endBatch
  cases hh : s.handling with
  | none => exact hWF
  | some h =>
    have : ∀ (l : List Int) (x : EventpState), WF x → WF (l.foldl tableDrop x) := by
      intro l
      induction l with
      | nil => exact fun x h => h
      | cons a l ih => exact fun x h => ih _ (WF_tableDrop x a h)
    exact this _ _ hWF

/-! ## Tracking a subscriber through a dispatch batch -/

/-- The deferred-removal list of the current batch (empty outside dispatch). -/
def deferredOf (s : EventpState) : List Int :=
  match s.handling with
  | some h => h.deferred_remove
  | none => []

/-- The subscriber identity `i` registered at `fd` is still owned by the
table at `fd`, or its destructor has run: the only two places the Rust
ownership discipline allows a handle to be. -/
def Tracked (i : Nat) (fd : Int) (s : EventpState) : Prop :=
  (∃ sub, tableFind s.registered fd = some sub ∧ sub.id = i) ∨ i ∈ s.destroyed

theorem add_handling (s : EventpState) (g : Int) (c : Interest) (k : Option IOError) :
    (add s g c k).2.handling = s.handling := by
  unfold add
  split
  · rfl
  · cases hctl : ctl_add s.armed g k <;> rfl

theorem add_cases (s : EventpState) (g : Int) (c : Interest) (k : Option IOError) :
    ((add s g c k).2.registered = s.registered
      ∧ (add s g c k).2.destroyed = s.destroyed ++ [s.nextId])
    ∨ ((add s g c k).2.registered = (g, ⟨s.nextId, g, c⟩) :: tableErase s.registered g
      ∧ (add s g c k).2.destroyed = dropId s.destroyed (tableFind s.registered g)) := by
  unfold add
  split
  · exact Or.inl ⟨rfl, rfl⟩
  · cases hctl : ctl_add s.armed g k with
    | error e => exact Or.inl ⟨rfl, rfl⟩
    | ok armed' => exact Or.inr ⟨rfl, rfl⟩

theorem modify_cases (s : EventpState) (fd : Int) (i : Interest) (k : Option IOError) :
    (modify s fd i k).2 = s
    ∨ ((modify s fd i k).2.registered = writeCell s.registered fd i
       ∧ (modify s fd i k).2.destroyed = s.destroyed
       ∧ (modify s fd i k).2.handling = s.handling
       ∧ (modify s fd i k).2.armed = s.armed) := by
  unfold modify
  cases hfind : tableFind s.registered fd with
  | none => exact Or.inl rfl
  | some sub =>
    cases hctl : ctl_mod s.armed fd k with
    | error e => exact Or.inl rfl
    | ok armed' =>
      exact Or.inr ⟨rfl, rfl, rfl, by dsimp only; exact ctl_mod_ok s.armed fd k armed' hctl⟩

theorem delete_cases (s : EventpState) (fd : Int) (k : Option IOError) :
    (delete s fd k).2 = s
    ∨ (∃ h, s.handling = some h
        ∧ (delete s fd k).2.registered = s.registered
        ∧ (delete s fd k).2.destroyed = s.destroyed
        ∧ (delete s fd k).2.handling = some ⟨h.fd, h.deferred_remove ++ [fd]⟩
        ∧ (delete s fd k).2.armed = armedErase s.armed fd)
    ∨ (s.handling = none
        ∧ (delete s fd k).2.registered = tableErase s.registered fd
        ∧ (delete s fd k).2.destroyed = dropId s.destroyed (tableFind s.registered fd)
        ∧ (delete s fd k).2.handling = none
        ∧ (delete s fd k).2.armed = armedErase s.armed fd) := by
  unfold delete
  cases hctl : ctl_del s.armed fd k with
  | error e => exact Or.inl rfl
  | ok armed' =>
    have harm := (ctl_del_ok s.armed fd k armed' hctl).1
    cases hh : s.handling with
    | some h => exact Or.inr (Or.inl ⟨h, rfl, rfl, rfl, rfl, by dsimp only; exact harm⟩)
    | none => exact Or.inr (Or.inr ⟨rfl, rfl, rfl, hh, by dsimp only; exact harm⟩)

theorem tracked_add (s : EventpState) (g : Int) (c : Interest) (k : Option IOError)
    (i : Nat) (fd : Int) (hT : Tracked i fd s) : Tracked i fd (add s g c k).2 := by
  rcases add_cases s g c k with ⟨hreg, hdes⟩ | ⟨hreg, hdes⟩
  · rcases hT with ⟨sub, hfind, hid⟩ | hmem
    · exact Or.inl ⟨sub, by rw [hreg]; exact hfind, hid⟩
    · exact Or.inr (by rw [hdes]; exact List.mem_append_left _ hmem)
  · by_cases hfg : fd = g
    · subst hfg
      rcases hT with ⟨sub, hfind, hid⟩ | hmem
      · refine Or.inr ?_
        rw [hdes, hfind]
        simp [dropId, hid]
      · refine Or.inr ?_
        rw [hdes]
        cases hf2 : tableFind s.registered fd <;> simp [dropId, hmem]
    · rcases hT with ⟨sub, hfind, hid⟩ | hmem
      · refine Or.inl ⟨sub, ?_, hid⟩
        rw [hreg]
        simp only [tableFind]
        rw [if_neg (fun hh => hfg hh.symm), tableFind_erase, if_neg hfg]
        exact hfind
      · refine Or.inr ?_
        rw [hdes]
        cases hf2 : tableFind s.registered g <;> simp [dropId, hmem]

theorem tracked_modify (s : EventpState) (fd0 : Int) (i0 : Interest) (k : Option IOError)
    (i : Nat) (fd : Int) (hT : Tracked i fd s) : Tracked i fd (modify s fd0 i0 k).2 := by
  rcases modify_cases s fd0 i0 k with heq | ⟨hreg, hdes, _, _⟩
  · rw [heq]; exact hT
  · rcases hT with ⟨sub, hfind, hid⟩ | hmem
    · by_cases hf : fd = fd0
      · subst hf
        refine Or.inl ⟨⟨sub.id, sub.fd, i0⟩, ?_, hid⟩
        rw [hreg, tableFind_writeCell, if_pos rfl, hfind]
        rfl
      · exact Or.inl ⟨sub, by rw [hreg, tableFind_writeCell, if_neg hf]; exact hfind, hid⟩
    · exact Or.inr (by rw [hdes]; exact hmem)

theorem tracked_tableDrop (s : EventpState) (fd0 : Int) (i : Nat) (fd : Int)
    (hT : Tracked i fd s) : Tracked i fd (tableDrop s fd0) := by
  rcases hT with ⟨sub, hfind, hid⟩ | hmem
  · by_cases hf : fd = fd0
    · subst hf
      refine Or.inr ?_
      show i ∈ dropId s.destroyed (tableFind s.registered fd)
      rw [hfind]
      simp [dropId, hid]
    · refine Or.inl ⟨sub, ?_, hid⟩
      show tableFind (tableErase s.registered fd0) fd = some sub
      rw [tableFind_erase, if_neg hf]
      exact hfind
  · refine Or.inr ?_
    show i ∈ dropId s.destroyed (tableFind s.registered fd0)
    cases hf2 : tableFind s.registered fd0 <;> simp [dropId, hmem]

theorem tracked_delete (s : EventpState) (fd0 : Int) (k : Option IOError)
    (i : Nat) (fd : Int) (hT : Tracked i fd s) : Tracked i fd (delete s fd0 k).2 := by
  rcases delete_cases s fd0 k with heq | ⟨h, _, hreg, hdes, _, _⟩ | ⟨_, hreg, hdes, _, _⟩
  · rw [heq]; exact hT
  · rcases hT with ⟨sub, hfind, hid⟩ | hmem
    · exact Or.inl ⟨sub, by rw [hreg]; exact hfind, hid⟩
    · exact Or.inr (by rw [hdes]; exact hmem)
  · rcases hT with ⟨sub, hfind, hid⟩ | hmem
    · by_cases hf : fd = fd0
      · subst hf
        refine Or.inr ?_
        rw [hdes, hfind]
        simp [dropId, hid]
      · refine Or.inl ⟨sub, ?_, hid⟩
        rw [hreg, tableFind_erase, if_neg hf]
        exact hfind
    · refine Or.inr ?_
      rw [hdes]
      cases hf2 : tableFind s.registered fd0 <;> simp [dropId, hmem]

theorem tracked_applyHandlerOp (s : EventpState) (op : HandlerOp) (i : Nat) (fd : Int)
    (hT : Tracked i fd s) : Tracked i fd (applyHandlerOp s op) := by
  cases op with
  | add g c k => exact tracked_add s g c k i fd hT
  | modify g c k => exact tracked_modify s g c k i fd hT
  | delete g k => exact tracked_delete s g k i fd hT

theorem tracked_foldl_ops (ops : List HandlerOp) (i : Nat) (fd : Int) :
    ∀ s : EventpState, Tracked i fd s → Tracked i fd (ops.foldl applyHandlerOp s) := by
  induction ops with
  | nil => exact fun s h => h
  | cons op ops ih => exact fun s h => ih _ (tracked_applyHandlerOp s op i fd h)

theorem tracked_dispatchEvent (s : EventpState) (ev : EventSpec) (i : Nat) (fd : Int)
    (hT : Tracked i fd s) : Tracked i fd (dispatchEvent s ev) :=
  tracked_foldl_ops ev.ops i fd _ hT

theorem tracked_foldl_events (evs : List EventSpec) (i : Nat) (fd : Int) :
    ∀ s : EventpState, Tracked i fd s → Tracked i fd (evs.foldl dispatchEvent s) := by
  induction evs with
  | nil => exact fun s h => h
  | cons ev evs ih => exact fun s h => ih _ (tracked_dispatchEvent s ev i fd h)

theorem tracked_endBatch (s : EventpState) (i : Nat) (fd : Int)
    (hT : Tracked i fd s) : Tracked i fd (endBatch s) := by
  unfold endBatch
  cases hh : s.handling with
  | none => exact hT
  | some h =>
    have hfold : ∀ (l : List Int) (x : EventpState),
        Tracked i fd x → Tracked i fd (l.foldl tableDrop x) := by
      intro l
      induction l with
      | nil => exact fun x hx => hx
      | cons a l ih => exact fun x hx => ih _ (tracked_tableDrop x a i fd hx)
    exact hfold _ _ hT

/-! ## Monotonicity of the deferred-removal list during a batch -/

theorem deferredOf_setCurrentFd (s : EventpState) (f : Int) :
    deferredOf (setCurrentFd s f) = deferredOf s := by
  unfold deferredOf setCurrentFd
  cases s.handling <;> rfl

theorem deferred_add (s : EventpState) (g : Int) (c : Interest) (k : Option IOError)
    (x : Int) (hx : x ∈ deferredOf s) : x ∈ deferredOf (add s g c k).2 := by
  unfold deferredOf
  rw [add_handling]
  exact hx

theorem deferred_modify (s : EventpState) (fd : Int) (i : Interest) (k : Option IOError)
    (x : Int) (hx : x ∈ deferredOf s) : x ∈ deferredOf (modify s fd i k).2 := by
  rcases modify_cases s fd i k with heq | ⟨_, _, hh, _⟩
  · rw [heq]; exact hx
  · unfold deferredOf
    rw [hh]
    exact hx

theorem deferred_delete (s : EventpState) (fd : Int) (k : Option IOError)
    (x : Int) (hx : x ∈ deferredOf s) : x ∈ deferredOf (delete s fd k).2 := by
  rcases delete_cases s fd k with heq | ⟨h, hsome, _, _, hh, _⟩ | ⟨hnone, _, _, hh, _⟩
  · rw [heq]; exact hx
  · unfold deferredOf at hx ⊢
    rw [hh]
    rw [hsome] at hx
    exact List.mem_append_left _ hx
  · unfold deferredOf at hx
    rw [hnone] at hx
    simp at hx

theorem deferred_applyHandlerOp (s : EventpState) (op : HandlerOp)
    (x : Int) (hx : x ∈ deferredOf s) : x ∈ deferredOf (applyHandlerOp s op) := by
  cases op with
  | add g c k => exact deferred_add s g c k x hx
  | modify g c k => exact deferred_modify s g c k x hx
  | delete g k => exact deferred_delete s g k x hx

theorem deferred_foldl_ops (ops : List HandlerOp) (x : Int) :
    ∀ s : EventpState, x ∈ deferredOf s → x ∈ deferredOf (ops.foldl applyHandlerOp s) := by
  induction ops with
  | nil => exact fun s h => h
  | cons op ops ih => exact fun s h => ih _ (deferred_applyHandlerOp s op x h)

theorem deferred_dispatchEvent (s : EventpState) (ev : EventSpec)
    (x : Int) (hx : x ∈ deferredOf s) : x ∈ deferredOf (dispatchEvent s ev) := by
  apply deferred_foldl_ops
  show x ∈ deferredOf (setCurrentFd s ev.fd)
  rw [deferredOf_setCurrentFd]
  exact hx

theorem deferred_foldl_events (evs : List EventSpec) (x : Int) :
    ∀ s : EventpState, x ∈ deferredOf s → x ∈ deferredOf (evs.foldl dispatchEvent s) := by
  induction evs with
  | nil => exact fun s h => h
  | cons ev evs ih => exact fun s h => ih _ (deferred_dispatchEvent s ev x h)

/-! ## The deferred-removal loop at the end of a batch -/

theorem foldl_tableDrop_find (l : List Int) :
    ∀ (s : EventpState) (g : Int), tableFind s.registered g = none →
      tableFind ((l.foldl tableDrop s)).registered g = none := by
  induction l with
  | nil => exact fun s g h => h
  | cons a l ih =>
    intro s g h
    apply ih
    show tableFind (tableErase s.registered a) g = none
    rw [tableFind_erase]
    split
    · rfl
    · exact h

theorem foldl_tableDrop_find_of_mem (l : List Int) :
    ∀ (s : EventpState) (g : Int), g ∈ l →
      tableFind ((l.foldl tableDrop s)).registered g = none := by
  induction l with
  | nil =>
    intro s g h
    simp at h
  | cons a l ih =>
    intro s g h
    rcases List.mem_cons.mp h with h | h
    · subst h
      have hbase : tableFind (tableDrop s g).registered g = none := by
        show tableFind (tableErase s.registered g) g = none
        rw [tableFind_erase, if_pos rfl]
      exact foldl_tableDrop_find l (tableDrop s g) g hbase
    · exact ih _ g h

theorem endBatch_removes (s : EventpState) (g : Int) (hg : g ∈ deferredOf s) :
    tableFind (endBatch s).registered g = none := by
  unfold endBatch
  cases hh : s.handling with
  | none =>
    unfold deferredOf at hg
    rw [hh] at hg
    simp at hg
  | some h =>
    unfold deferredOf at hg
    rw [hh] at hg
    exact foldl_tableDrop_find_of_mem _ _ _ hg

theorem delete_ok_shape (s : EventpState) (fd : Int) (k : Option IOError)
    (hOk : (delete s fd k).1 = .ok ()) :
    ∃ armed', ctl_del s.armed fd k = .ok armed' := by
  unfold delete at hOk
  cases hctl : ctl_del s.armed fd k with
  | error e =>
    simp only [hctl] at hOk
    exact Except.noConfusion hOk
  | ok armed' => exact ⟨armed', rfl⟩

theorem delete_during_dispatch_eq (s : EventpState) (fd : Int) (k : Option IOError)
    (hdl : Handling) (armed' : List Int)
    (hH : s.handling = some hdl) (hctl : ctl_del s.armed fd k = .ok armed') :
    delete s fd k = (.ok (),
      { s with
        armed := armed',
        handling := some ⟨hdl.fd, hdl.deferred_remove ++ [fd]⟩ }) := by
  unfold delete
  simp only [hctl, hH]

/-- C1.  `delete(fd)` issues the kernel `EPOLL_CTL_DEL` first (on success
`fd` is disarmed at once); called while a dispatch batch is in progress
(`handling` is `Some`), it appends `fd` to `deferred_remove` and leaves both
the registration table and the destruction log untouched at that moment.
However the rest of the batch proceeds (any further handler calls
`restOps`, any further events `restEvents`), the end of
`run_once_with_timeout` removes every fd of `deferred_remove` from the
table; in particular the table no longer contains `fd`, and the subscriber
value that was registered at `fd` has been destructed exactly once. -/
theorem delete_during_dispatch
    (s : EventpState) (fd : Int) (k : Option IOError) (hdl : Handling) (sub : SubHandle)
    (restOps : List HandlerOp) (restEvents : List EventSpec)
    (hWF : WF s)
    (hH : s.handling = some hdl)
    (hSub : tableFind s.registered fd = some sub)
    (hOk : (delete s fd k).1 = .ok ()) :
    fd ∉ (delete s fd k).2.armed
    ∧ (delete s fd k).2.registered = s.registered
    ∧ (delete s fd k).2.handling = some ⟨hdl.fd, hdl.deferred_remove ++ [fd]⟩
    ∧ (delete s fd k).2.destroyed = s.destroyed
    ∧ (∀ g, g ∈ deferredOf (restEvents.foldl dispatchEvent
          (restOps.foldl applyHandlerOp (delete s fd k).2)) →
        tableFind (endBatch (restEvents.foldl dispatchEvent
          (restOps.foldl applyHandlerOp (delete s fd k).2))).registered g = none)
    ∧ tableFind (endBatch (restEvents.foldl dispatchEvent
        (restOps.foldl applyHandlerOp (delete s fd k).2))).registered fd = none
    ∧ (endBatch (restEvents.foldl dispatchEvent
        (restOps.foldl applyHandlerOp (delete s fd k).2))).destroyed.count sub.id = 1 := by
  obtain ⟨armed', hctl⟩ := delete_ok_shape s fd k hOk
  have heq := delete_during_dispatch_eq s fd k hdl armed' hH hctl
  have harm : armed' = armedErase s.armed fd := (ctl_del_ok s.armed fd k armed' hctl).1
  have hs1 : (delete s fd k).2 =
      { s with
        armed := armed',
        handling := some ⟨hdl.fd, hdl.deferred_remove ++ [fd]⟩ } := by rw [heq]
  have hWF1 : WF (delete s fd k).2 := WF_delete s fd k hWF
  have hT1 : Tracked sub.id fd (delete s fd k).2 := by
    rw [hs1]
    exact Or.inl ⟨sub, hSub, rfl⟩
  have hD1 : fd ∈ deferredOf (delete s fd k).2 := by
    rw [hs1]
    unfold deferredOf
    dsimp only
    exact List.mem_append_right _ (List.mem_singleton.mpr rfl)
  have hWF3 : WF (restEvents.foldl dispatchEvent
      (restOps.foldl applyHandlerOp (delete s fd k).2)) :=
    WF_foldl_events restEvents _ (WF_foldl_ops restOps _ hWF1)
  have hT3 : Tracked sub.id fd (restEvents.foldl dispatchEvent
      (restOps.foldl applyHandlerOp (delete s fd k).2)) :=
    tracked_foldl_events restEvents sub.id fd _ (tracked_foldl_ops restOps sub.id fd _ hT1)
  have hD3 : fd ∈ deferredOf (restEvents.foldl dispatchEvent
      (restOps.foldl applyHandlerOp (delete s fd k).2)) :=
    deferred_foldl_events restEvents fd _ (deferred_foldl_ops restOps fd _ hD1)
  have hfinalWF : WF (endBatch (restEvents.foldl dispatchEvent
      (restOps.foldl applyHandlerOp (delete s fd k).2))) := WF_endBatch _ hWF3
  have hfindNone : tableFind (endBatch (restEvents.foldl dispatchEvent
      (restOps.foldl applyHandlerOp (delete s fd k).2))).registered fd = none :=
    endBatch_removes _ fd hD3
  have hmem : sub.id ∈ (endBatch (restEvents.foldl dispatchEvent
      (restOps.foldl applyHandlerOp (delete s fd k).2))).destroyed := by
    rcases tracked_endBatch _ sub.id fd hT3 with ⟨sub', hfind', _⟩ | hmem
    · rw [hfindNone] at hfind'
      exact absurd hfind' (by simp)
    · exact hmem
  refine ⟨?_, ?_, ?_, ?_, ?_, hfindNone, ?_⟩
  · rw [hs1]
    dsimp only
    rw [harm]
    intro hmemArm
    exact ((mem_armedErase s.armed fd fd).mp hmemArm).2 rfl
  · rw [hs1]
  · rw [hs1]
  · rw [hs1]
  · exact fun g hg => endBatch_removes _ g hg
  · exact List.count_eq_one_of_mem hfinalWF.2.2.1 hmem

/-- Witness for C1: during the dispatch of fd 5, its handler deletes fd 5;
after the batch, fd 5 is gone from the table and the handle (id 0) was
destructed exactly once. -/
theorem delete_during_dispatch_witness :
    WF ⟨[(5, ⟨0, 5, ⟨1⟩⟩)], [5], some ⟨5, []⟩, [], [5], 1⟩
    ∧ (delete ⟨[(5, ⟨0, 5, ⟨1⟩⟩)], [5], some ⟨5, []⟩, [], [5], 1⟩ 5 none).1 = .ok ()
    ∧ tableFind (endBatch
        (delete ⟨[(5, ⟨0, 5, ⟨1⟩⟩)], [5], some ⟨5, []⟩, [], [5], 1⟩ 5 none).2).registered 5
      = none
    ∧ (endBatch
        (delete ⟨[(5, ⟨0, 5, ⟨1⟩⟩)], [5], some ⟨5, []⟩, [], [5], 1⟩ 5 none).2).destroyed.count 0
      = 1 :=
  ⟨by decide, by decide,
   (delete_during_dispatch ⟨[(5, ⟨0, 5, ⟨1⟩⟩)], [5], some ⟨5, []⟩, [], [5], 1⟩ 5 none
      ⟨5, []⟩ ⟨0, 5, ⟨1⟩⟩ [] [] (by decide) rfl (by decide) (by decide)).2.2.2.2.2.1,
   (delete_during_dispatch ⟨[(5, ⟨0, 5, ⟨1⟩⟩)], [5], some ⟨5, []⟩, [], [5], 1⟩ 5 none
      ⟨5, []⟩ ⟨0, 5, ⟨1⟩⟩ [] [] (by decide) rfl (by decide) (by decide)).2.2.2.2.2.2⟩

/-! ## C5: the table/kernel relation over reachable states -/

/-- Every registered fd is armed in the kernel or pending deferred
removal. -/
def RegisteredArmedInv (s : EventpState) : Prop :=
  ∀ fd, (tableFind s.registered fd).isSome → fd ∈ s.armed ∨ fd ∈ deferredOf s

theorem deferredOf_eq_of_handling (x y : EventpState) (h : x.handling = y.handling) :
    deferredOf x = deferredOf y := by
  unfold deferredOf
  rw [h]

theorem add_cases_full (s : EventpState) (g : Int) (c : Interest) (k : Option IOError) :
    ((add s g c k).2.registered = s.registered
      ∧ (add s g c k).2.armed = s.armed)
    ∨ ((add s g c k).2.registered = (g, ⟨s.nextId, g, c⟩) :: tableErase s.registered g
      ∧ (add s g c k).2.armed = g :: s.armed) := by
  unfold add
  split
  · exact Or.inl ⟨rfl, rfl⟩
  · cases hctl : ctl_add s.armed g k with
    | error e => exact Or.inl ⟨rfl, rfl⟩
    | ok armed' =>
      exact Or.inr ⟨rfl, by dsimp only; exact (ctl_add_ok s.armed g k armed' hctl).1⟩

theorem inv_add (s : EventpState) (g : Int) (c : Interest) (k : Option IOError)
    (hInv : RegisteredArmedInv s) : RegisteredArmedInv (add s g c k).2 := by
  have hdef : deferredOf (add s g c k).2 = deferredOf s :=
    deferredOf_eq_of_handling _ _ (add_handling s g c k)
  rcases add_cases_full s g c k with ⟨hreg, harm⟩ | ⟨hreg, harm⟩
  · intro fd hfd
    rw [hreg] at hfd
    rw [harm, hdef]
    exact hInv fd hfd
  · intro fd hfd
    rw [hreg] at hfd
    rw [harm, hdef]
    by_cases hf : fd = g
    · exact Or.inl (by rw [hf]; exact List.mem_cons_self g s.armed)
    · have hfd' : (tableFind s.registered fd).isSome := by
        simp only [tableFind] at hfd
        rw [if_neg (fun hh => hf hh.symm), tableFind_erase, if_neg hf] at hfd
        exact hfd
      rcases hInv fd hfd' with h | h
      · exact Or.inl (List.mem_cons_of_mem _ h)
      · exact Or.inr h

theorem inv_modify (s : EventpState) (fd0 : Int) (i : Interest) (k : Option IOError)
    (hInv : RegisteredArmedInv s) : RegisteredArmedInv (modify s fd0 i k).2 := by
  rcases modify_cases s fd0 i k with heq | ⟨hreg, _, hh, harm⟩
  · rw [heq]; exact hInv
  · have hdef : deferredOf (modify s fd0 i k).2 = deferredOf s :=
      deferredOf_eq_of_handling _ _ hh
    intro fd hfd
    rw [hreg, tableFind_writeCell] at hfd
    rw [harm, hdef]
    have hfd' : (tableFind s.registered fd).isSome := by
      by_cases hf : fd = fd0
      · rw [if_pos hf] at hfd
        cases htf : tableFind s.registered fd with
        | none => rw [htf] at hfd; simp at hfd
        | some sub => rfl
      · rw [if_neg hf] at hfd
        exact hfd
    exact hInv fd hfd'

theorem inv_delete (s : EventpState) (fd0 : Int) (k : Option IOError)
    (hInv : RegisteredArmedInv s) : RegisteredArmedInv (delete s fd0 k).2 := by
  rcases delete_cases s fd0 k with heq | ⟨h, hsome, hreg, _, hh, harm⟩ | ⟨hnone, hreg, _, hh, harm⟩
  · rw [heq]; exact hInv
  · intro fd hfd
    rw [hreg] at hfd
    rw [harm]
    unfold deferredOf
    rw [hh]
    by_cases hf : fd = fd0
    · exact Or.inr (List.mem_append_right _ (by rw [hf]; exact List.mem_singleton.mpr rfl))
    · rcases hInv fd hfd with ha | hd
      · exact Or.inl ((mem_armedErase s.armed fd0 fd).mpr ⟨ha, hf⟩)
      · refine Or.inr (List.mem_append_left _ ?_)
        unfold deferredOf at hd
        rw [hsome] at hd
        exact hd
  · intro fd hfd
    rw [hreg, tableFind_erase] at hfd
    rw [harm]
    unfold deferredOf
    rw [hh]
    split at hfd
    · simp at hfd
    · rename_i hf
      rcases hInv fd hfd with ha | hd
      · exact Or.inl ((mem_armedErase s.armed fd0 fd).mpr ⟨ha, hf⟩)
      · unfold deferredOf at hd
        rw [hnone] at hd
        simp at hd

theorem inv_applyHandlerOp (s : EventpState) (op : HandlerOp)
    (hInv : RegisteredArmedInv s) : RegisteredArmedInv (applyHandlerOp s op) := by
  cases op with
  | add g c k => exact inv_add s g c k hInv
  | modify g c k => exact inv_modify s g c k hInv
  | delete g k => exact inv_delete s g k hInv

theorem inv_foldl_ops (ops : List HandlerOp) :
    ∀ s : EventpState, RegisteredArmedInv s →
      RegisteredArmedInv (ops.foldl applyHandlerOp s) := by
  induction ops with
  | nil => exact fun s h => h
  | cons op ops ih => exact fun s h => ih _ (inv_applyHandlerOp s op h)

theorem inv_setCurrentFd (s : EventpState) (f : Int)
    (hInv : RegisteredArmedInv s) : RegisteredArmedInv (setCurrentFd s f) := by
  intro fd hfd
  rw [deferredOf_setCurrentFd]
  exact hInv fd hfd

theorem inv_dispatchEvent (s : EventpState) (ev : EventSpec)
    (hInv : RegisteredArmedInv s) : RegisteredArmedInv (dispatchEvent s ev) :=
  inv_foldl_ops ev.ops _ (inv_setCurrentFd s ev.fd hInv)

theorem inv_foldl_events (evs : List EventSpec) :
    ∀ s : EventpState, RegisteredArmedInv s →
      RegisteredArmedInv (evs.foldl dispatchEvent s) := by
  induction evs with
  | nil => exact fun s h => h
  | cons ev evs ih => exact fun s h => ih _ (inv_dispatchEvent s ev h)

theorem inv_beginBatch (s : EventpState) (hn : s.handling = none)
    (hInv : RegisteredArmedInv s) : RegisteredArmedInv (beginBatch s) := by
  intro fd hfd
  have hh := hInv fd hfd
  unfold deferredOf at hh
  rw [hn] at hh
  simp only [List.not_mem_nil, or_false] at hh
  exact Or.inl hh

theorem inv_endBatch_aux (l : List Int) :
    ∀ s : EventpState,
      (∀ fd, (tableFind s.registered fd).isSome → fd ∈ s.armed ∨ fd ∈ l) →
      ∀ fd, (tableFind ((l.foldl tableDrop s)).registered fd).isSome →
        fd ∈ (l.foldl tableDrop s).armed := by
  induction l with
  | nil =>
    intro s h fd hfd
    rcases h fd hfd with h | h
    · exact h
    · simp at h
  | cons a l ih =>
    intro s h fd hfd
    refine ih (tableDrop s a) ?_ fd hfd
    intro g hg
    have hg' : (tableFind s.registered g).isSome ∧ g ≠ a := by
      have heq : tableFind (tableDrop s a).registered g
          = tableFind (tableErase s.registered a) g := rfl
      rw [heq, tableFind_erase] at hg
      split at hg
      · simp at hg
      · rename_i hne
        exact ⟨hg, hne⟩
    rcases h g hg'.1 with hh | hh
    · exact Or.inl hh
    · rcases List.mem_cons.mp hh with hh | hh
      · exact absurd hh hg'.2
      · exact Or.inr hh

theorem inv_endBatch (s : EventpState) (hInv : RegisteredArmedInv s) :
    RegisteredArmedInv (endBatch s) := by
  unfold endBatch
  cases hh : s.handling with
  | none => exact hInv
  | some h =>
    intro fd hfd
    left
    refine inv_endBatch_aux h.deferred_remove { s with handling := none } ?_ fd hfd
    intro g hg
    have hg2 := hInv g hg
    unfold deferredOf at hg2
    rw [hh] at hg2
    exact hg2

theorem inv_run (s : EventpState) (t : EpollTimeout) (w : WaitOutcome)
    (hInv : RegisteredArmedInv s) :
    RegisteredArmedInv (run_once_with_timeout s t w).2 := by
  unfold run_once_with_timeout
  split
  · exact hInv
  · rename_i hcond
    have hn : s.handling = none := Option.not_isSome_iff_eq_none.mp (by simpa using hcond)
    cases w with
    | error e => exact hInv
    | ok evs =>
      exact inv_endBatch _ (inv_foldl_events evs _ (inv_beginBatch s hn hInv))

/-- The reachable reactor states, mid-dispatch states included: everything
obtainable from a fresh reactor by registration calls (`add`/`modify`/
`delete` — issued directly or by a handler through the scoped handle, which
forwards to the same three methods) and by the individual steps of
`run_once_with_timeout`: entering the handling state (only from a quiescent
state, as the re-entrancy panic enforces), updating the current fd and
logging a handler invocation for each event, and processing the deferred
removals at the end of the batch.  `runStep` additionally closes the states
over whole event-loop iterations. -/
inductive Reachable : EventpState → Prop where
  | init : Reachable initial
  | addStep (s : EventpState) (fd : Int) (c : Interest) (k : Option IOError) :
      Reachable s → Reachable (add s fd c k).2
  | modifyStep (s : EventpState) (fd : Int) (i : Interest) (k : Option IOError) :
      Reachable s → Reachable (modify s fd i k).2
  | deleteStep (s : EventpState) (fd : Int) (k : Option IOError) :
      Reachable s → Reachable (delete s fd k).2
  | beginBatchStep (s : EventpState) :
      s.handling = none → Reachable s → Reachable (beginBatch s)
  | currentFdStep (s : EventpState) (fd : Int) :
      Reachable s → Reachable (setCurrentFd s fd)
  | invokeStep (s : EventpState) (fd : Int) :
      Reachable s → Reachable { s with invoked := s.invoked ++ [fd] }
  | endBatchStep (s : EventpState) :
      Reachable s → Reachable (endBatch s)
  | runStep (s : EventpState) (t : EpollTimeout) (w : WaitOutcome) :
      Reachable s → Reachable (run_once_with_timeout s t w).2

/-- C5 counterexample.  The claimed equivalence `registered.contains(fd)` ⇔
`fd` armed fails on a reachable state: register fds 5 and 6, then run one
batch in which the handler for fd 5 first deletes fd 6 (kernel disarm
succeeds, table removal is deferred) and then adds a fresh subscriber on
fd 6 (kernel arms fd 6 again, table entry replaced).  The deferred-removal
loop at the end of the batch then removes fd 6 from the table while the
kernel still has fd 6 armed: in the resulting quiescent state fd 6 is armed
but not registered. -/
theorem registered_armed_equiv_counterexample :
    Reachable (run_once_with_timeout (add (add initial 5 ⟨1⟩ none).2 6 ⟨1⟩ none).2 0
        (.ok [⟨5, [.delete 6 none, .add 6 ⟨1⟩ none]⟩])).2
    ∧ (run_once_with_timeout (add (add initial 5 ⟨1⟩ none).2 6 ⟨1⟩ none).2 0
        (.ok [⟨5, [.delete 6 none, .add 6 ⟨1⟩ none]⟩])).2.handling = none
    ∧ (6 : Int) ∈ (run_once_with_timeout (add (add initial 5 ⟨1⟩ none).2 6 ⟨1⟩ none).2 0
        (.ok [⟨5, [.delete 6 none, .add 6 ⟨1⟩ none]⟩])).2.armed
    ∧ tableFind (run_once_with_timeout (add (add initial 5 ⟨1⟩ none).2 6 ⟨1⟩ none).2 0
        (.ok [⟨5, [.delete 6 none, .add 6 ⟨1⟩ none]⟩])).2.registered 6 = none :=
  ⟨Reachable.runStep _ 0 _
      (Reachable.addStep _ 6 ⟨1⟩ none (Reachable.addStep _ 5 ⟨1⟩ none Reachable.init)),
   by decide, by decide, by decide⟩

/-- C5 (amended).  In every reachable reactor state, every fd in the
registration table is armed in the kernel epoll set or recorded in the
current batch's `deferred_remove`; in particular, outside dispatch
(`handling = None`) every registered fd is armed.  The converse inclusion is
not an invariant: an fd deleted during dispatch stays registered while
disarmed until the batch ends, and an fd re-added after a deferred delete in
the same batch stays armed after the batch although its table entry was
removed. -/
theorem registered_armed_invariant (s : EventpState) (hR : Reachable s) :
    (∀ fd, (tableFind s.registered fd).isSome → fd ∈ s.armed ∨ fd ∈ deferredOf s)
    ∧ (s.handling = none → ∀ fd, (tableFind s.registered fd).isSome → fd ∈ s.armed) := by
  have hInv : RegisteredArmedInv s := by
    induction hR with
    | init =>
      intro fd hfd
      simp [initial, tableFind] at hfd
    | addStep s fd c k _ ih => exact inv_add s fd c k ih
    | modifyStep s fd i k _ ih => exact inv_modify s fd i k ih
    | deleteStep s fd k _ ih => exact inv_delete s fd k ih
    | beginBatchStep s hn _ ih => exact inv_beginBatch s hn ih
    | currentFdStep s fd _ ih => exact inv_setCurrentFd s fd ih
    | invokeStep s fd _ ih => exact fun g hg => ih g hg
    | endBatchStep s _ ih => exact inv_endBatch s ih
    | runStep s t w _ ih => exact inv_run s t w ih
  refine ⟨hInv, ?_⟩
  intro hn fd hfd
  rcases hInv fd hfd with h | h
  · exact h
  · unfold deferredOf at h
    rw [hn] at h
    simp at h

/-- Witness for the amended C5, evaluated on a reachable mid-dispatch
state: register fd 5, enter a batch, set the current fd to 5, and let the
handler delete fd 5.  In the resulting state (`handling` is `Some` with
`deferred_remove = [5]`), fd 5 is still registered but no longer armed, so
the invariant holds through its deferred-removal disjunct. -/
theorem registered_armed_invariant_witness :
    Reachable (delete (setCurrentFd (beginBatch (add initial 5 ⟨1⟩ none).2) 5) 5 none).2
    ∧ (tableFind
        (delete (setCurrentFd (beginBatch (add initial 5 ⟨1⟩ none).2) 5) 5 none).2.registered
        5).isSome
    ∧ (delete (setCurrentFd (beginBatch (add initial 5 ⟨1⟩ none).2) 5) 5 none).2.handling
        = some ⟨5, [5]⟩
    ∧ (5 : Int) ∉ (delete (setCurrentFd (beginBatch (add initial 5 ⟨1⟩ none).2) 5) 5 none).2.armed
    ∧ ((5 : Int) ∈ (delete (setCurrentFd (beginBatch (add initial 5 ⟨1⟩ none).2) 5) 5 none).2.armed
        ∨ (5 : Int) ∈ deferredOf
            (delete (setCurrentFd (beginBatch (add initial 5 ⟨1⟩ none).2) 5) 5 none).2) :=
  ⟨Reachable.deleteStep _ 5 none
      (Reachable.currentFdStep _ 5
        (Reachable.beginBatchStep _ (by decide)
          (Reachable.addStep initial 5 ⟨1⟩ none Reachable.init))),
   by decide, by decide, by decide,
   (registered_armed_invariant
      (delete (setCurrentFd (beginBatch (add initial 5 ⟨1⟩ none).2) 5) 5 none).2
      (Reachable.deleteStep _ 5 none
        (Reachable.currentFdStep _ 5
          (Reachable.beginBatchStep _ (by decide)
            (Reachable.addStep initial 5 ⟨1⟩ none Reachable.init))))).1 5 (by decide)⟩

end EventpModel
